import Mathlib

/-!
Verification of the instrumented mutex runtime of
`audio_utils/include/audio_utils/mutex.h` (android::audio_utils).

Shallow embedding conventions:
* `MutexHandle` (a `void*`) is a `Nat`; the null pointer is `0`.
* `Order` (the `MutexOrder` enum, compared through `static_cast<size_t>`) is a `Nat`.
* `pid_t` is an `Int`; `kInvalidTid = -1`.
* The pair array of `atomic_stack` is a `List (Nat × Nat)` of length `N`
  (slot index → (item, payload)); the zero-initialized invalid pair is `(0, 0)`.
* The single-writer atomics (`thread_atomic`) are plain values: every claim
  considered here concerns the owning thread's view, which the source
  documents as ordinary sequential reads and writes.
-/

namespace AudioUtils

/-- The zero-initialized `invalid_` entry of `atomic_stack` (`mutex.h:834`). -/
def invalidPair : Nat × Nat := (0, 0)

/-- `atomic_stack<Item, Payload, N>` (`mutex.h:690-835`): bounded single-writer
stack of (mutex handle, order) pairs.  `top_` is the physical size
(`size()`), `true_top_` the logical size (`true_size()`), `pairs_` the
fixed `N`-slot backing array. -/
structure atomic_stack (N : Nat) where
  top_ : Nat
  true_top_ : Nat
  pairs_ : List (Nat × Nat)
deriving DecidableEq

namespace atomic_stack

/-- A freshly constructed (zero-initialized) `atomic_stack`. -/
def init (N : Nat) : atomic_stack N :=
  { top_ := 0, true_top_ := 0, pairs_ := List.replicate N (0, 0) }

/-- `atomic_stack::push` (`mutex.h:705-722`): write the pair at `top_`
(or overwrite slot `N-1` when the capacity is reached), always advance
`true_top_`, advance `top_` only when below capacity. -/
def push {N : Nat} (s : atomic_stack N) (item payload : Nat) : atomic_stack N :=
  let location := if s.top_ ≥ N then N - 1 else s.top_
  let increment := if s.top_ ≥ N then 0 else 1
  { top_ := s.top_ + increment
    true_top_ := s.true_top_ + 1
    pairs_ := s.pairs_.set location (item, payload) }

/-- The scan loop of `atomic_stack::remove` (`mutex.h:735-752`):
`for (size_t i = top_; i > 0;) if (item == pairs_[--i].first) ...` —
returns the greatest index `i` below the argument with a matching item. -/
def scanFound (pairs : List (Nat × Nat)) (item : Nat) : Nat → Option Nat
  | 0 => none
  | i + 1 =>
    if (pairs.getD i invalidPair).1 = item then some i
    else scanFound pairs item i

/-- The shift loop of `atomic_stack::remove` (`mutex.h:741-746`):
`while (i < limit) { pairs_[i] = pairs_[i+1]; ++i; }`. -/
def shiftDown (pairs : List (Nat × Nat)) (i limit : Nat) : List (Nat × Nat) :=
  if i < limit then
    shiftDown (pairs.set i (pairs.getD (i + 1) invalidPair)) (i + 1) limit
  else pairs
termination_by limit - i

/-- `atomic_stack::remove` (`mutex.h:729-761`).  Returns the C++ boolean
result together with the post-state. -/
def remove {N : Nat} (s : atomic_stack N) (item : Nat) : Bool × atomic_stack N :=
  if s.true_top_ = 0 then (false, s)
  else
    -- --true_top_;
    let tt := s.true_top_ - 1
    match scanFound s.pairs_ item s.top_ with
    | some i =>
      (true, { top_ := s.top_ - 1
               true_top_ := tt
               pairs_ := shiftDown s.pairs_ i (s.top_ - 1) })
    | none =>
      if tt ≥ s.top_ then (true, { s with true_top_ := tt })
      else (false, { s with true_top_ := s.top_ })

/-- `atomic_stack::top(offset)` (`mutex.h:771-775`): the entry `offset`
below the physical top, or the invalid pair when out of range. -/
def top {N : Nat} (s : atomic_stack N) (offset : Nat) : Nat × Nat :=
  if offset < s.top_ ∧ s.top_ - offset ≤ N then
    s.pairs_.getD (s.top_ - offset - 1) invalidPair
  else invalidPair

/-- `atomic_stack::bottom(offset)` (`mutex.h:781-784`). -/
def bottom {N : Nat} (s : atomic_stack N) (offset : Nat) : Nat × Nat :=
  if offset < s.top_ then s.pairs_.getD offset invalidPair else invalidPair

/-- `atomic_stack::size()` (`mutex.h:813`). -/
def size {N : Nat} (s : atomic_stack N) : Nat := s.top_

/-- `atomic_stack::true_size()` (`mutex.h:812`). -/
def true_size {N : Nat} (s : atomic_stack N) : Nat := s.true_top_

/-- The loop body of `thread_mutex_info::check_held` (`mutex.h:928-941`),
with explicit loop counter `i` and remaining iteration count (fuel);
the C++ loop runs `i` from `0` to `size - 1` over `top(i)`. -/
def check_held_from {N : Nat} (s : atomic_stack N) (mutex order : Nat)
    (i : Nat) : Nat → Nat × Nat
  | 0 => invalidPair
  | fuel + 1 =>
    let t := s.top i
    if t.2 < order then invalidPair        -- break: ok
    else if t.2 > order then t             -- inverted order
    else if t.1 = mutex then t             -- recursive mutex
    else check_held_from s mutex order (i + 1) fuel

/-- `thread_mutex_info::check_held` (`mutex.h:928-941`) expressed on the
held stack it scans. -/
def check_held {N : Nat} (s : atomic_stack N) (mutex order : Nat) : Nat × Nat :=
  check_held_from s mutex order 0 s.size

end atomic_stack

/-- Bottom-indexed entry view of the pair array (`pairs_[j]`, zero default). -/
def entry {N : Nat} (s : atomic_stack N) (j : Nat) : Nat × Nat :=
  s.pairs_.getD j invalidPair

/-- An owning-thread operation on an `atomic_stack` (the only two mutating
entry points, `push` and `remove`). -/
inductive stack_op where
  | push_op (item payload : Nat)
  | remove_op (item : Nat)
deriving DecidableEq

/-- Run a sequence of `push`/`remove` operations from a given state,
discarding the boolean result of `remove` as `remove_held` callers may. -/
def run_stack_ops {N : Nat} : atomic_stack N → List stack_op → atomic_stack N
  | s, [] => s
  | s, stack_op.push_op h o :: ops => run_stack_ops (s.push h o) ops
  | s, stack_op.remove_op h :: ops => run_stack_ops (s.remove h).2 ops

/-- `other_wait_reason_t` (`mutex.h:838-843`). -/
inductive other_wait_reason_t where
  | none
  | cv
  | join
  | queue
deriving DecidableEq

/-- `kInvalidTid` (`mutex.h:477`). -/
def kInvalidTid : Int := -1

/-- `thread_mutex_info::other_wait_info` (`mutex.h:879-911`). -/
structure other_wait_info where
  tid_ : Int
  reason_ : other_wait_reason_t
  order_ : Nat
deriving DecidableEq

/-- `thread_mutex_info<MutexHandle, Order, N>` (`mutex.h:874-1027`):
per-thread descriptor.  `mutex_wait_` is the handle currently blocked on
(`0` = null = not waiting). -/
structure thread_mutex_info (N : Nat) where
  tid_ : Int
  mutex_wait_ : Nat
  other_wait_info_ : other_wait_info
  mutexes_held_ : atomic_stack N
deriving DecidableEq

/-- `thread_mutex_info::check_held` (`mutex.h:928-941`): scan the held
stack from the top for a conflicting entry. -/
def thread_mutex_info.check_held {N : Nat} (t : thread_mutex_info N)
    (mutex order : Nat) : Nat × Nat :=
  t.mutexes_held_.check_held mutex order

/-!
Owning-thread lock/unlock semantics.

`AudioMutexAttributes` (`mutex.h:252-281`) fixes
`mutex_tracking_enabled_ = true`, `abort_on_order_check_ = true`,
`abort_on_recursion_check_ = true`, `abort_on_invalid_unlock_ = true`.
Under those attributes `mutex::lock` runs
`lock_scoped_stat_enabled::pre_lock` (`mutex.h:1537-1560`), which is fatal
(`LOG_ALWAYS_FATAL_IF`) exactly when `check_held` returns a pair with a
non-null first component (the returned conflict pair always has
`p_order >= m_order`, so one of the two fatal conditions fires), and on
success `post_lock` pushes `(&m, order)` (`mutex.h:1562-1565`).
`mutex::unlock` runs `pre_unlock` (`mutex.h:1528-1534`), fatal when
`remove_held` fails.  A fatal abort terminates the process, so an
executable sequence is one in which no operation aborts; `thread_step`
returns `none` exactly at an abort.  The pushed handle `&m` is a live
object address, hence never null. -/
inductive thread_op where
  | lock_op (handle order : Nat)
  | unlock_op (handle : Nat)
deriving DecidableEq

/-- One instrumented lock or unlock by the owning thread, acting on its
held stack; `none` models the always-fatal abort paths. -/
def thread_step {N : Nat} (s : atomic_stack N) : thread_op → Option (atomic_stack N)
  | thread_op.lock_op h o =>
    if h ≠ 0 ∧ (s.check_held h o).1 = 0 then some (s.push h o) else none
  | thread_op.unlock_op h =>
    let r := s.remove h
    if r.1 then some r.2 else none

/-- Run a sequence of lock/unlock operations; `none` once any aborts. -/
def run_thread_ops {N : Nat} : atomic_stack N → List thread_op → Option (atomic_stack N)
  | s, [] => some s
  | s, op :: ops =>
    match thread_step s op with
    | some s2 => run_thread_ops s2 ops
    | Option.none => Option.none

/-- `mutex_stat<uint64_t, double>` (`mutex.h:589-623`): the per-capability
category counters.  The wait-time accumulators are exact here (`Int`
nanosecond totals); the claims below only concern whether they change. -/
structure mutex_stat where
  locks : Nat
  unlocks : Nat
  waits : Nat
  wait_sum_ns : Int
  wait_sumsq_ns : Int
deriving DecidableEq

/-- A zero-initialized category statistic. -/
def mutex_stat.init : mutex_stat :=
  { locks := 0, unlocks := 0, waits := 0, wait_sum_ns := 0, wait_sumsq_ns := 0 }

/-- `mutex_stat::add_wait_time` (`mutex.h:601-606`): accumulate `dt` and
`dt*dt`. -/
def mutex_stat.add_wait_time (st : mutex_stat) (wait_ns : Int) : mutex_stat :=
  { st with
    wait_sum_ns := st.wait_sum_ns + wait_ns
    wait_sumsq_ns := st.wait_sumsq_ns + wait_ns * wait_ns }

/-- Modelled from the spec: `safe_add_sat` (declared in
`audio_utils/safe_math.h`, which is not among the provided sources) is the
saturating signed 64-bit addition used to form the absolute deadline
`now + timeout` in `std_mutex_timed_lock` and `mutex_impl::try_lock`. -/
def safe_add_sat (a b : Int) : Int :=
  let s := a + b
  if s < -(2 ^ 63) then -(2 ^ 63)
  else if 2 ^ 63 - 1 < s then 2 ^ 63 - 1
  else s

/-- The OS lock primitives invoked by `mutex_impl::try_lock`
(`mutex.h:1410-1431`): `m_.try_lock()` and
`pthread_mutex_timedlock(m_.native_handle(), &ts)`. -/
inductive os_call where
  | os_try_lock
  | os_timed_lock (deadline_ns : Int)
deriving DecidableEq

/-- Result of the `mutex_impl::try_lock` model: the boolean return value,
the post-state of this mutex's category statistic, and the OS lock
primitives invoked, in order. -/
structure try_lock_result where
  acquired : Bool
  stat : mutex_stat
  calls : List os_call
deriving DecidableEq

namespace mutex_impl

/-- `mutex_impl::try_lock(timeout_ns)` (`mutex.h:1410-1431`) under the
default attributes, as a function of this mutex's category statistic.
Environment inputs: `now_ns` is `systemTime(SYSTEM_TIME_REALTIME)`,
`os_try_ok` the result of `m_.try_lock()`, `os_timed_ok` whether
`pthread_mutex_timedlock` returned 0, and `wait_ns` the elapsed time
charged by `~lock_scoped_stat_enabled` when the wait is not discarded.
`pre_lock` touches no counters; `lock_scoped_stat_enabled`'s constructor
increments `waits` (`mutex.h:1515`); on timeout `ignoreWaitTime()` makes
the destructor skip `add_wait_time` (`mutex.h:1520,1524-1526`);
`post_lock` increments `locks` (`mutex.h:1563`). -/
def try_lock (st : mutex_stat) (timeout_ns now_ns : Int)
    (os_try_ok os_timed_ok : Bool) (wait_ns : Int) : try_lock_result :=
  if timeout_ns ≤ 0 then
    if !os_try_ok then
      { acquired := false, stat := st, calls := [os_call.os_try_lock] }
    else
      { acquired := true
        stat := { st with locks := st.locks + 1 }
        calls := [os_call.os_try_lock] }
  else
    let deadline_ns := safe_add_sat timeout_ns now_ns
    let st1 := { st with waits := st.waits + 1 }
    if !os_timed_ok then
      { acquired := false, stat := st1, calls := [os_call.os_timed_lock deadline_ns] }
    else
      let st2 := st1.add_wait_time wait_ns
      { acquired := true
        stat := { st2 with locks := st2.locks + 1 }
        calls := [os_call.os_timed_lock deadline_ns] }

/-- `mutex_impl::lock` (`mutex.h:1393-1402`) as a function of this mutex's
category statistic: a successful `m_.try_lock()` goes straight to
`post_lock`; otherwise `lock_scoped_stat_enabled` charges a wait
(`waits` up, wait time accumulated) around the blocking `m_.lock()`. -/
def lock (st : mutex_stat) (os_try_ok : Bool) (wait_ns : Int) : mutex_stat :=
  if os_try_ok then { st with locks := st.locks + 1 }
  else
    let st1 := { st with waits := st.waits + 1 }
    let st2 := st1.add_wait_time wait_ns
    { st2 with locks := st2.locks + 1 }

/-- `mutex_impl::unlock` (`mutex.h:1404-1408`): `pre_unlock` increments
`unlocks` (`mutex.h:1529`). -/
def unlock (st : mutex_stat) : mutex_stat :=
  { st with unlocks := st.unlocks + 1 }

end mutex_impl

/-!
Category-level operation sequences (claim C2).

One capability-order category, exercised through one mutex of that order
(every mutex of the order shares the same `mutex_stat`).  Operations are
taken at completed-call granularity: each constructor is one completed
`lock`, `unlock` or `try_lock` call, with its statistics effects exactly
those of the corresponding code path above.  `held` tracks ownership of
the mutex so that only realizable outcomes are modelled: a plain
`try_lock` fails exactly when the mutex is held, a timed `try_lock` can
expire only while it is held, and an acquisition completes only once the
previous holder has released. -/
inductive mutex_op where
  | lock_uncontended
  | lock_contended (wait_ns : Int)
  | unlock_op
  | try_lock_zero (timeout_ns : Int)
  | try_lock_timed_ok (timeout_ns now_ns wait_ns : Int)
  | try_lock_timed_expired (timeout_ns now_ns : Int)
deriving DecidableEq

/-- Ownership plus category statistic for one mutex. -/
structure category_state where
  held : Bool
  stat : mutex_stat
deriving DecidableEq

/-- Initial category state: mutex free, zeroed counters. -/
def category_state.init : category_state :=
  { held := false, stat := mutex_stat.init }

/-- One completed operation (see the `mutex_op` commentary); `none` marks
an unrealizable outcome. -/
def category_step (s : category_state) : mutex_op → Option category_state
  | mutex_op.lock_uncontended =>
    if s.held then Option.none
    else some { held := true, stat := mutex_impl.lock s.stat true 0 }
  | mutex_op.lock_contended wait_ns =>
    if s.held then Option.none
    else some { held := true, stat := mutex_impl.lock s.stat false wait_ns }
  | mutex_op.unlock_op =>
    if s.held then some { held := false, stat := mutex_impl.unlock s.stat }
    else Option.none
  | mutex_op.try_lock_zero timeout_ns =>
    if 0 < timeout_ns then Option.none
    else
      -- m_.try_lock() succeeds exactly when the mutex is free.
      let r := mutex_impl.try_lock s.stat timeout_ns 0 (!s.held) true 0
      some { held := s.held || r.acquired, stat := r.stat }
  | mutex_op.try_lock_timed_ok timeout_ns now_ns wait_ns =>
    if s.held ∨ timeout_ns ≤ 0 then Option.none
    else some { held := true
                stat := (mutex_impl.try_lock s.stat timeout_ns now_ns false true wait_ns).stat }
  | mutex_op.try_lock_timed_expired timeout_ns now_ns =>
    if s.held ∧ 0 < timeout_ns then
      some { held := s.held
             stat := (mutex_impl.try_lock s.stat timeout_ns now_ns false false 0).stat }
    else Option.none

/-- Run a sequence of completed category operations. -/
def run_category_ops : category_state → List mutex_op → Option category_state
  | s, [] => some s
  | s, op :: ops =>
    match category_step s op with
    | some s2 => run_category_ops s2 ops
    | Option.none => Option.none

/-- Number of timed `try_lock` calls that expired in a sequence. -/
def count_timed_expired : List mutex_op → Nat
  | [] => 0
  | mutex_op.try_lock_timed_expired _ _ :: ops => count_timed_expired ops + 1
  | _ :: ops => count_timed_expired ops

/-!
Deadlock detection (`thread_registry::deadlock_detection`,
`mutex.h:1185-1298`).  The registry snapshot `copy_map()` is a finite map
from tid to `weak_ptr<thread_mutex_info>`; it is embedded as an
association list with unique keys, `Option.none` standing for an expired
weak pointer. -/

/-- `deadlock_info_t` (`mutex.h:1037-1067`). -/
structure deadlock_info_t where
  tid : Int
  has_cycle : Bool
  other_wait_reason : other_wait_reason_t
  chain : List (Int × String)
deriving DecidableEq

/-- `deadlock_info_t`'s constructor (`mutex.h:1039`) with default members. -/
def deadlock_info_t.mk0 (tid : Int) : deadlock_info_t :=
  { tid := tid, has_cycle := false
    other_wait_reason := other_wait_reason_t.none, chain := [] }

/-- A registry snapshot: tid to (possibly expired) descriptor reference. -/
abbrev registry_map (N : Nat) := List (Int × Option (thread_mutex_info N))

/-- `thread_registry::tid_to_info` (`mutex.h:1159-1166`): look up the tid
and promote the weak pointer. -/
def tid_to_info {N : Nat} (reg : registry_map N) (tid : Int) :
    Option (thread_mutex_info N) :=
  match reg.find? (fun p => p.1 = tid) with
  | Option.none => Option.none
  | some p => p.2

/-- `mutex_to_tid[mutex_ptr] = {tid, order}` assignment on the helper
unordered map (overwrites an existing key). -/
def assoc_set (m : List (Nat × Int × Nat)) (k : Nat) (v : Int × Nat) :
    List (Nat × Int × Nat) :=
  if m.any (fun p => p.1 = k) then
    m.map (fun p => if p.1 = k then (k, v) else p)
  else (k, v) :: m

/-- `mutex_to_tid.count(m)` / `mutex_to_tid[m]` lookup. -/
def assoc_find (m : List (Nat × Int × Nat)) (k : Nat) : Option (Int × Nat) :=
  match m.find? (fun p => p.1 = k) with
  | Option.none => Option.none
  | some p => some p.2

/-- The helper-map construction of `deadlock_detection` (`mutex.h:1225-1244`):
for every live descriptor, enter each of the first
`min(stack.size(), capacity)` held (handle, order) pairs, read bottom-up,
skipping null handles. -/
def build_mutex_to_tid {N : Nat} (reg : registry_map N) : List (Nat × Int × Nat) :=
  reg.foldl
    (fun acc p =>
      match p.2 with
      | Option.none => acc
      | some info =>
        let stack := info.mutexes_held_
        let size := min stack.size N
        (List.range size).foldl
          (fun acc2 i =>
            let pr := stack.bottom i
            if pr.1 ≠ 0 then assoc_set acc2 pr.1 (p.1, pr.2) else acc2)
          acc)
    []

/-- The mutex name for a capability order (`mutex.h:1273`):
`order < std::size(mutex_names) ? mutex_names[order] : "unknown"`. -/
def order_name (names : List String) (order : Nat) : String :=
  if order < names.length then names.getD order "" else "unknown"

/-- The chain label (`mutex.h:1274-1278`): `cv-<name>`, `join`, `queue`,
or the mutex name. -/
def chain_label (names : List String) (reason : other_wait_reason_t)
    (order : Nat) : String :=
  match reason with
  | other_wait_reason_t.cv => String.append "cv-" (order_name names order)
  | other_wait_reason_t.join => "join"
  | other_wait_reason_t.queue => "queue"
  | other_wait_reason_t.none => order_name names order

/-- The traversal loop of `deadlock_detection` (`mutex.h:1251-1297`).
Arguments mirror the C++ loop state: current waiting handle `m`
(`0` = null), current auxiliary-wait tid/reason/order, visited tids and
the accumulated `deadlock_info`.  Each non-returning iteration inserts a
fresh tid into `visited` that must be a registry key, so
`reg.length + 1` iterations always suffice; the fuel only makes the
recursion structural. -/
def deadlock_loop {N : Nat} (reg : registry_map N) (names : List String)
    (mutex_to_tid : List (Nat × Int × Nat)) (visited : List Int)
    (m : Nat) (other_wait_tid : Int) (other_wait_reason : other_wait_reason_t)
    (other_wait_order : Nat) (dinfo : deadlock_info_t) :
    Nat → deadlock_info_t
  | 0 => dinfo
  | fuel + 1 =>
    -- select the next hop: mutex edge first, then auxiliary wait, else stop.
    let hop : Option (Int × Nat × other_wait_reason_t × deadlock_info_t) :=
      if m ≠ 0 ∧ (assoc_find mutex_to_tid m).isSome then
        -- waiting on a mutex held by another tid; reason stays `none`.
        some ((assoc_find mutex_to_tid m).getD (0, 0) |>.1,
          (assoc_find mutex_to_tid m).getD (0, 0) |>.2,
          other_wait_reason_t.none, dinfo)
      else if other_wait_tid ≠ kInvalidTid then
        -- cv/join/queue wait on a tid; surface the reason (mutex.h:1265).
        some (other_wait_tid, other_wait_order, other_wait_reason,
          { dinfo with other_wait_reason := other_wait_reason })
      else Option.none
    match hop with
    | Option.none => dinfo
    | some (tid2, order, reason, d0) =>
      -- append `(tid2, label)`; stop with a cycle on a revisit; else reload
      -- the next descriptor and continue (mutex.h:1271-1296).
      let d2 :=
        { d0 with chain := d0.chain ++ [(tid2, chain_label names reason order)] }
      if visited.contains tid2 then { d2 with has_cycle := true }
      else
        match tid_to_info reg tid2 with
        | Option.none => d2
        | some tinfo =>
          deadlock_loop reg names mutex_to_tid (tid2 :: visited)
            tinfo.mutex_wait_ tinfo.other_wait_info_.tid_
            tinfo.other_wait_info_.reason_ tinfo.other_wait_info_.order_
            d2 fuel

/-- `thread_registry::deadlock_detection` (`mutex.h:1186-1298`): resolve
the target descriptor, return the empty `deadlock_info_t` when it is
absent or neither mutex- nor auxiliary-waiting, otherwise build the
handle-to-holder map and traverse the wait chain. -/
def deadlock_detection {N : Nat} (reg : registry_map N) (tid : Int)
    (names : List String) : deadlock_info_t :=
  let dinfo := deadlock_info_t.mk0 tid
  match tid_to_info reg tid with
  | Option.none => dinfo
  | some tinfo =>
    let m := tinfo.mutex_wait_
    let other_wait_tid := tinfo.other_wait_info_.tid_
    if m = 0 ∧ other_wait_tid = kInvalidTid then dinfo
    else
      deadlock_loop reg names (build_mutex_to_tid reg) [tid]
        m other_wait_tid tinfo.other_wait_info_.reason_
        tinfo.other_wait_info_.order_ dinfo (reg.length + 1)

/-- Operation sequence refuting claim C2: one uncontended lock followed by
two timed `try_lock` calls that expire. -/
def C2_cex_ops : List mutex_op :=
  [mutex_op.lock_uncontended,
   mutex_op.try_lock_timed_expired 1 0,
   mutex_op.try_lock_timed_expired 1 0]

/-- State invariant of a held stack maintained by the instrumented
lock/unlock discipline: the backing array has length `N`, the physical
size is within capacity, every physical entry has a non-null handle, and
the physical orders are non-decreasing from bottom to top. -/
def stack_inv {N : Nat} (s : atomic_stack N) : Prop :=
  s.pairs_.length = N ∧ s.top_ ≤ N ∧
  (∀ j, j < s.top_ → (entry s j).1 ≠ 0) ∧
  (∀ j, j < s.top_ → ∀ k, k < s.top_ → j ≤ k → (entry s j).2 ≤ (entry s k).2)

/-! ## Theorems -/

/-! ### List and scan helper lemmas -/

theorem getD_set_ne (l : List (Nat × Nat)) (i j : Nat) (v d : Nat × Nat)
    (h : i ≠ j) : (l.set i v).getD j d = l.getD j d := by
  simp [List.getD_eq_getElem?_getD, List.getElem?_set_ne h]

theorem getD_set_self (l : List (Nat × Nat)) (i : Nat) (v d : Nat × Nat)
    (h : i < l.length) : (l.set i v).getD i d = v := by
  simp [List.getD_eq_getElem?_getD, List.getElem?_set_self, h]

theorem shiftDown_length (l : List (Nat × Nat)) (i limit : Nat) :
    (atomic_stack.shiftDown l i limit).length = l.length := by
  rw [atomic_stack.shiftDown]
  by_cases h : i < limit
  · rw [if_pos h, shiftDown_length]
    simp
  · rw [if_neg h]
termination_by limit - i

theorem shiftDown_getD_lt (l : List (Nat × Nat)) (i limit j : Nat)
    (d : Nat × Nat) (hj : j < i) :
    (atomic_stack.shiftDown l i limit).getD j d = l.getD j d := by
  rw [atomic_stack.shiftDown]
  by_cases h : i < limit
  · rw [if_pos h, shiftDown_getD_lt _ (i + 1) limit j d (by omega)]
    exact getD_set_ne l i j _ d (by omega)
  · rw [if_neg h]
termination_by limit - i

theorem shiftDown_getD_ge (l : List (Nat × Nat)) (i limit j : Nat)
    (d : Nat × Nat) (hj : limit ≤ j) :
    (atomic_stack.shiftDown l i limit).getD j d = l.getD j d := by
  rw [atomic_stack.shiftDown]
  by_cases h : i < limit
  · rw [if_pos h, shiftDown_getD_ge _ (i + 1) limit j d hj]
    exact getD_set_ne l i j _ d (by omega)
  · rw [if_neg h]
termination_by limit - i

theorem shiftDown_getD_mid (l : List (Nat × Nat)) (i limit j : Nat)
    (d : Nat × Nat) (hlim : limit < l.length) (hij : i ≤ j) (hj : j < limit) :
    (atomic_stack.shiftDown l i limit).getD j d = l.getD (j + 1) d := by
  rw [atomic_stack.shiftDown]
  have h : i < limit := by omega
  rw [if_pos h]
  by_cases hji : j = i
  · subst hji
    rw [shiftDown_getD_lt _ (j + 1) limit j d (by omega)]
    rw [getD_set_self l j _ d (by omega)]
    simp [List.getD_eq_getElem?_getD,
      List.getElem?_eq_getElem (show j + 1 < l.length by omega)]
  · rw [shiftDown_getD_mid _ (i + 1) limit j d (by simpa) (by omega) hj]
    exact getD_set_ne l i (j + 1) _ d (by omega)
termination_by limit - i

theorem scanFound_eq_none (pairs : List (Nat × Nat)) (item : Nat) (n : Nat) :
    atomic_stack.scanFound pairs item n = Option.none ↔
      ∀ j, j < n → (pairs.getD j invalidPair).1 ≠ item := by
  induction n with
  | zero =>
    simp only [atomic_stack.scanFound]
    exact ⟨fun _ j hj => absurd hj (by omega), fun _ => trivial⟩
  | succ n ih =>
    simp only [atomic_stack.scanFound]
    by_cases h : (pairs.getD n invalidPair).1 = item
    · rw [if_pos h]
      constructor
      · intro hc; cases hc
      · intro hall; exact absurd h (hall n (by omega))
    · rw [if_neg h, ih]
      constructor
      · intro hall j hj
        by_cases hjn : j = n
        · subst hjn; exact h
        · exact hall j (by omega)
      · intro hall j hj
        exact hall j (by omega)

theorem scanFound_eq_some (pairs : List (Nat × Nat)) (item : Nat) (n i : Nat)
    (hscan : atomic_stack.scanFound pairs item n = some i) :
    i < n ∧ (pairs.getD i invalidPair).1 = item ∧
      ∀ j, i < j → j < n → (pairs.getD j invalidPair).1 ≠ item := by
  induction n with
  | zero => cases hscan
  | succ n ih =>
    simp only [atomic_stack.scanFound] at hscan
    by_cases h : (pairs.getD n invalidPair).1 = item
    · rw [if_pos h] at hscan
      cases hscan
      exact ⟨by omega, h, fun j hj1 hj2 => by omega⟩
    · rw [if_neg h] at hscan
      obtain ⟨h1, h2, h3⟩ := ih hscan
      refine ⟨by omega, h2, fun j hj1 hj2 => ?_⟩
      by_cases hjn : j = n
      · subst hjn; exact h
      · exact h3 j hj1 (by omega)

theorem scanFound_spec_some (pairs : List (Nat × Nat)) (item : Nat) (n i : Nat)
    (hi : i < n) (hmatch : (pairs.getD i invalidPair).1 = item)
    (habove : ∀ j, i < j → j < n → (pairs.getD j invalidPair).1 ≠ item) :
    atomic_stack.scanFound pairs item n = some i := by
  induction n with
  | zero => omega
  | succ n ih =>
    simp only [atomic_stack.scanFound]
    by_cases hin : i = n
    · subst hin; rw [if_pos hmatch]
    · rw [if_neg (habove n (by omega) (by omega))]
      exact ih (by omega) (fun j hj1 hj2 => habove j hj1 (by omega))

/-- Claim C3: for every `atomic_stack` whose physical size already equals
the capacity `N`, `push(handle, order)` writes the pair into slot `N-1`
(overwriting the previous topmost entry), leaves the physical top
unchanged at `N`, and increments the logical (true) size by one; when the
physical size is below `N`, `push` writes at the physical top and
increments both counters. -/
theorem C3_push_at_capacity {N : Nat} (s : atomic_stack N) (h o : Nat)
    (hN : 0 < N) :
    (s.top_ = N →
      (s.push h o).pairs_ = s.pairs_.set (N - 1) (h, o) ∧
      (s.push h o).top_ = N ∧
      (s.push h o).true_top_ = s.true_top_ + 1) ∧
    (s.top_ < N →
      (s.push h o).pairs_ = s.pairs_.set s.top_ (h, o) ∧
      (s.push h o).top_ = s.top_ + 1 ∧
      (s.push h o).true_top_ = s.true_top_ + 1) := by
  constructor <;> intro h1
  · have hge : s.top_ ≥ N := by omega
    simp only [atomic_stack.push, if_pos hge]
    refine ⟨?_, ?_, ?_⟩ <;> first | trivial | omega
  · have hlt : ¬ s.top_ ≥ N := by omega
    simp only [atomic_stack.push, if_neg hlt]
    refine ⟨?_, ?_, ?_⟩ <;> first | trivial | omega

/-- Witness for C3: a full stack (capacity 2) overwrites slot 1 keeping
the physical top at 2, and a stack of physical size 1 pushes at slot 1. -/
theorem C3_push_at_capacity_witness :
    (((⟨2, 2, [(1, 3), (2, 4)]⟩ : atomic_stack 2).push 5 6).pairs_ =
        [(1, 3), (2, 4)].set (2 - 1) (5, 6) ∧
      ((⟨2, 2, [(1, 3), (2, 4)]⟩ : atomic_stack 2).push 5 6).top_ = 2 ∧
      ((⟨2, 2, [(1, 3), (2, 4)]⟩ : atomic_stack 2).push 5 6).true_top_ = 2 + 1) ∧
    (((⟨1, 1, [(1, 3), (0, 0)]⟩ : atomic_stack 2).push 5 6).pairs_ =
        [(1, 3), (0, 0)].set 1 (5, 6) ∧
      ((⟨1, 1, [(1, 3), (0, 0)]⟩ : atomic_stack 2).push 5 6).top_ = 1 + 1 ∧
      ((⟨1, 1, [(1, 3), (0, 0)]⟩ : atomic_stack 2).push 5 6).true_top_ = 1 + 1) :=
  ⟨(C3_push_at_capacity ⟨2, 2, [(1, 3), (2, 4)]⟩ 5 6 (by decide)).1 rfl,
   (C3_push_at_capacity ⟨1, 1, [(1, 3), (0, 0)]⟩ 5 6 (by decide)).2 (by decide)⟩

/-- Claim C10: for every `atomic_stack` whose logical size (`true_size`)
is zero, `remove(handle)` returns `false` for any handle and leaves the
stack completely unchanged (physical size, logical size, and all stored
entries). -/
theorem C10_remove_on_logically_empty {N : Nat} (s : atomic_stack N)
    (h : Nat) (hz : s.true_top_ = 0) : s.remove h = (false, s) := by
  unfold atomic_stack.remove
  rw [if_pos hz]

/-- Witness for C10: removing from a fresh stack fails and is a no-op. -/
theorem C10_remove_on_logically_empty_witness :
    (atomic_stack.init 3).true_top_ = 0 ∧
    (atomic_stack.init 3).remove 7 = (false, atomic_stack.init 3) :=
  ⟨rfl, C10_remove_on_logically_empty (atomic_stack.init 3) 7 rfl⟩

/-- Claim C6: for every instrumented mutex and every `timeout_ns ≤ 0`,
`try_lock(timeout_ns)` performs exactly one non-blocking try-lock attempt
and never invokes `pthread_mutex_timedlock`; only for `timeout_ns > 0`
does it compute an absolute deadline of now plus timeout (saturating
64-bit addition, equal to the plain sum whenever that sum is in range)
and call the OS timed lock. -/
theorem C6_try_lock_os_calls (st : mutex_stat) (timeout_ns now_ns : Int)
    (os_try_ok os_timed_ok : Bool) (wait_ns : Int) :
    (timeout_ns ≤ 0 →
      (mutex_impl.try_lock st timeout_ns now_ns os_try_ok os_timed_ok wait_ns).calls =
        [os_call.os_try_lock]) ∧
    (0 < timeout_ns →
      (mutex_impl.try_lock st timeout_ns now_ns os_try_ok os_timed_ok wait_ns).calls =
        [os_call.os_timed_lock (safe_add_sat timeout_ns now_ns)]) ∧
    (-(2 ^ 63) ≤ timeout_ns + now_ns → timeout_ns + now_ns ≤ 2 ^ 63 - 1 →
      safe_add_sat timeout_ns now_ns = timeout_ns + now_ns) := by
  refine ⟨fun h1 => ?_, fun h1 => ?_, fun h1 h2 => ?_⟩
  · unfold mutex_impl.try_lock
    rw [if_pos h1]
    cases os_try_ok <;> simp
  · unfold mutex_impl.try_lock
    rw [if_neg (by omega)]
    cases os_timed_ok <;> simp
  · unfold safe_add_sat
    rw [if_neg (by omega), if_neg (by omega)]

/-- Witness for C6 at `timeout_ns = 0` and `timeout_ns = 3`, `now = 5`. -/
theorem C6_try_lock_os_calls_witness :
    (mutex_impl.try_lock mutex_stat.init 0 5 true true 0).calls =
      [os_call.os_try_lock] ∧
    (mutex_impl.try_lock mutex_stat.init 3 5 true true 0).calls =
      [os_call.os_timed_lock (safe_add_sat 3 5)] ∧
    safe_add_sat 3 5 = 3 + 5 :=
  ⟨(C6_try_lock_os_calls mutex_stat.init 0 5 true true 0).1 (by decide),
   (C6_try_lock_os_calls mutex_stat.init 3 5 true true 0).2.1 (by decide),
   (C6_try_lock_os_calls mutex_stat.init 3 5 true true 0).2.2 (by decide) (by decide)⟩

/-- Claim C7: when `try_lock(timeout_ns)` with `timeout_ns > 0` expires
without acquiring the lock (`pthread_mutex_timedlock` fails), it returns
`false` and adds nothing to the category's `wait_sum_ns` and
`wait_sumsq_ns` accumulators. -/
theorem C7_timed_expiry_discards_wait_time (st : mutex_stat)
    (timeout_ns now_ns wait_ns : Int) (os_try_ok : Bool)
    (ht : 0 < timeout_ns) :
    (mutex_impl.try_lock st timeout_ns now_ns os_try_ok false wait_ns).acquired = false ∧
    (mutex_impl.try_lock st timeout_ns now_ns os_try_ok false wait_ns).stat.wait_sum_ns =
      st.wait_sum_ns ∧
    (mutex_impl.try_lock st timeout_ns now_ns os_try_ok false wait_ns).stat.wait_sumsq_ns =
      st.wait_sumsq_ns := by
  unfold mutex_impl.try_lock
  rw [if_neg (by omega)]
  exact ⟨rfl, rfl, rfl⟩

/-- Witness for C7: a 1 ns timed lock that expires returns `false` and
leaves both accumulators at their previous values. -/
theorem C7_timed_expiry_discards_wait_time_witness :
    (mutex_impl.try_lock ⟨4, 3, 2, 100, 50⟩ 1 5 true false 77).acquired = false ∧
    (mutex_impl.try_lock ⟨4, 3, 2, 100, 50⟩ 1 5 true false 77).stat.wait_sum_ns =
      (⟨4, 3, 2, 100, 50⟩ : mutex_stat).wait_sum_ns ∧
    (mutex_impl.try_lock ⟨4, 3, 2, 100, 50⟩ 1 5 true false 77).stat.wait_sumsq_ns =
      (⟨4, 3, 2, 100, 50⟩ : mutex_stat).wait_sumsq_ns :=
  C7_timed_expiry_discards_wait_time ⟨4, 3, 2, 100, 50⟩ 1 5 77 true (by decide)

/-- Claim C2 is false as stated: after an uncontended lock and two
timed-out `try_lock` calls on the same mutex, the category's `waits`
counter (2) exceeds its `locks` counter (1), because the
`lock_scoped_stat_enabled` constructor increments `waits` even when the
timed lock later expires. -/
theorem C2_counterexample :
    (run_category_ops category_state.init C2_cex_ops).isSome = true ∧
    ((run_category_ops category_state.init C2_cex_ops).getD
        category_state.init).stat.locks <
      ((run_category_ops category_state.init C2_cex_ops).getD
        category_state.init).stat.waits := by
  decide

/-- Per-operation accounting for C2: any single completed operation
increases `waits` by at most the increase of `locks`, except a timed
`try_lock` expiry, which adds one uncompensated `waits` increment. -/
theorem category_step_waits_bound (s s2 : category_state) (op : mutex_op)
    (h : category_step s op = some s2) :
    s2.stat.waits + s.stat.locks ≤
      s2.stat.locks + s.stat.waits + count_timed_expired [op] := by
  cases op with
  | lock_uncontended =>
    simp only [category_step] at h
    split at h
    · cases h
    · cases h
      simp [mutex_impl.lock, count_timed_expired] <;> omega
  | lock_contended w =>
    simp only [category_step] at h
    split at h
    · cases h
    · cases h
      simp [mutex_impl.lock, mutex_stat.add_wait_time, count_timed_expired] <;> omega
  | unlock_op =>
    simp only [category_step] at h
    split at h
    · cases h
      simp [mutex_impl.unlock, count_timed_expired] <;> omega
    · cases h
  | try_lock_zero t =>
    simp only [category_step] at h
    split at h
    · cases h
    · rename_i ht
      cases h
      simp only [mutex_impl.try_lock]
      rw [if_pos (show t ≤ 0 by omega)]
      cases hh : s.held <;> simp [hh, count_timed_expired] <;> omega
  | try_lock_timed_ok t n w =>
    simp only [category_step] at h
    split at h
    · cases h
    · rename_i ht
      push_neg at ht
      have ht2 := ht.2
      cases h
      simp only [mutex_impl.try_lock]
      rw [if_neg (show ¬ t ≤ 0 by omega)]
      simp [mutex_stat.add_wait_time, count_timed_expired] <;> omega
  | try_lock_timed_expired t n =>
    simp only [category_step] at h
    split at h
    · rename_i ht
      have ht2 := ht.2
      cases h
      simp only [mutex_impl.try_lock]
      rw [if_neg (show ¬ t ≤ 0 by omega)]
      simp [count_timed_expired] <;> omega
    · cases h

/-- Run-level accounting for C2, generalized over the start state. -/
theorem run_category_waits_bound (ops : List mutex_op) :
    ∀ s s2 : category_state, run_category_ops s ops = some s2 →
      s2.stat.waits + s.stat.locks ≤
        s2.stat.locks + s.stat.waits + count_timed_expired ops := by
  induction ops with
  | nil =>
    intro s s2 h
    simp only [run_category_ops] at h
    cases h
    omega
  | cons op ops ih =>
    intro s s2 h
    simp only [run_category_ops] at h
    cases hstep : category_step s op with
    | none => rw [hstep] at h; cases h
    | some s1 =>
      rw [hstep] at h
      have h1 := category_step_waits_bound s s1 op hstep
      have h2 := ih s1 s2 h
      have h3 : count_timed_expired (op :: ops) =
          count_timed_expired [op] + count_timed_expired ops := by
        cases op <;> simp [count_timed_expired] <;> omega
      omega

/-- Claim C2 (amended): for every capability-order category and every
sequence of completed lock, unlock and `try_lock(timeout)` operations on
instrumented mutexes of that category, the category's `waits` counter
never exceeds its `locks` counter plus the number of timed `try_lock`
calls that expired; in particular `waits ≤ locks` whenever no `try_lock`
has timed out. -/
theorem C2_amended_waits_bounded (ops : List mutex_op) (s : category_state)
    (h : run_category_ops category_state.init ops = some s) :
    s.stat.waits ≤ s.stat.locks + count_timed_expired ops := by
  have hb := run_category_waits_bound ops category_state.init s h
  simp only [category_state.init, mutex_stat.init] at hb
  omega

/-- Claim C4: for every non-empty `atomic_stack`, `remove(handle)` scans
from the physical top downward: if a matching handle is found (a topmost
physical match) it shifts every higher entry down one slot, decrements
both the physical and logical sizes, and returns `true`; if no match is
found it returns `true` exactly when the logical size exceeded the
physical size (an entry dropped by capacity), and otherwise restores the
logical size to the physical size and returns `false`. -/
theorem C4_remove_scan_shift_and_overflow {N : Nat} (s : atomic_stack N)
    (h : Nat) (hne : 0 < s.true_top_) (hlen : s.pairs_.length = N)
    (htop : s.top_ ≤ N) :
    (∀ i, i < s.top_ → (entry s i).1 = h →
      (∀ j, j < s.top_ → i < j → (entry s j).1 ≠ h) →
      (s.remove h).1 = true ∧
      (s.remove h).2.top_ = s.top_ - 1 ∧
      (s.remove h).2.true_top_ = s.true_top_ - 1 ∧
      (∀ j, j < i → entry (s.remove h).2 j = entry s j) ∧
      (∀ j, i ≤ j → j + 1 < s.top_ → entry (s.remove h).2 j = entry s (j + 1))) ∧
    ((∀ j, j < s.top_ → (entry s j).1 ≠ h) →
      ((s.remove h).1 = true ↔ s.top_ < s.true_top_) ∧
      (s.true_top_ ≤ s.top_ →
        (s.remove h).1 = false ∧
        (s.remove h).2.top_ = s.top_ ∧
        (s.remove h).2.true_top_ = s.top_ ∧
        (s.remove h).2.pairs_ = s.pairs_)) := by
  constructor
  · intro i hi hm hab
    have hscan := scanFound_spec_some s.pairs_ h s.top_ i hi hm
      (fun j hj1 hj2 => hab j hj2 hj1)
    simp only [atomic_stack.remove, if_neg (show ¬ s.true_top_ = 0 by omega), hscan]
    refine ⟨by trivial, by trivial, by trivial, fun j hj => ?_, fun j hj1 hj2 => ?_⟩
    · exact shiftDown_getD_lt s.pairs_ i (s.top_ - 1) j invalidPair hj
    · exact shiftDown_getD_mid s.pairs_ i (s.top_ - 1) j invalidPair
        (by omega) hj1 (by omega)
  · intro hnone
    have hscan : atomic_stack.scanFound s.pairs_ h s.top_ = Option.none :=
      (scanFound_eq_none s.pairs_ h s.top_).mpr hnone
    simp only [atomic_stack.remove, if_neg (show ¬ s.true_top_ = 0 by omega), hscan]
    by_cases hge : s.true_top_ - 1 ≥ s.top_
    · rw [if_pos hge]
      constructor
      · exact ⟨fun _ => by omega, fun _ => rfl⟩
      · intro hle
        exact absurd hle (by omega)
    · rw [if_neg hge]
      refine ⟨⟨fun hc => ?_, fun hc => absurd hc (by omega)⟩,
        fun _ => ⟨rfl, rfl, rfl, rfl⟩⟩
      simp at hc

/-- Witness for C4: on the stack `[(1,3),(2,4)]` (sizes 2/2, capacity 2),
removing handle `1` succeeds and shifts `(2,4)` down; removing the absent
handle `9` fails and restores the logical size. -/
theorem C4_remove_scan_shift_and_overflow_witness :
    (((⟨2, 2, [(1, 3), (2, 4)]⟩ : atomic_stack 2).remove 1).1 = true ∧
      ((⟨2, 2, [(1, 3), (2, 4)]⟩ : atomic_stack 2).remove 1).2.top_ = 2 - 1 ∧
      ((⟨2, 2, [(1, 3), (2, 4)]⟩ : atomic_stack 2).remove 1).2.true_top_ = 2 - 1 ∧
      (∀ j, j < (0 : Nat) →
        entry ((⟨2, 2, [(1, 3), (2, 4)]⟩ : atomic_stack 2).remove 1).2 j =
          entry (⟨2, 2, [(1, 3), (2, 4)]⟩ : atomic_stack 2) j) ∧
      (∀ j, 0 ≤ j → j + 1 < 2 →
        entry ((⟨2, 2, [(1, 3), (2, 4)]⟩ : atomic_stack 2).remove 1).2 j =
          entry (⟨2, 2, [(1, 3), (2, 4)]⟩ : atomic_stack 2) (j + 1))) ∧
    ((((⟨2, 2, [(1, 3), (2, 4)]⟩ : atomic_stack 2).remove 9).1 = true ↔
        (2 : Nat) < 2) ∧
      ((2 : Nat) ≤ 2 →
        (((⟨2, 2, [(1, 3), (2, 4)]⟩ : atomic_stack 2).remove 9).1 = false ∧
        ((⟨2, 2, [(1, 3), (2, 4)]⟩ : atomic_stack 2).remove 9).2.top_ = 2 ∧
        ((⟨2, 2, [(1, 3), (2, 4)]⟩ : atomic_stack 2).remove 9).2.true_top_ = 2 ∧
        ((⟨2, 2, [(1, 3), (2, 4)]⟩ : atomic_stack 2).remove 9).2.pairs_ =
          [(1, 3), (2, 4)]))) :=
  ⟨(C4_remove_scan_shift_and_overflow ⟨2, 2, [(1, 3), (2, 4)]⟩ 1
      (by decide) (by decide) (by decide)).1 0 (by decide) (by decide)
      (by decide),
   (C4_remove_scan_shift_and_overflow ⟨2, 2, [(1, 3), (2, 4)]⟩ 9
      (by decide) (by decide) (by decide)).2 (by decide)⟩

/-- `push` preserves the size invariants of C9. -/
theorem push_size_inv {N : Nat} (s : atomic_stack N) (h o : Nat)
    (h1 : s.top_ ≤ s.true_top_) (h2 : s.top_ ≤ N) :
    (s.push h o).top_ ≤ (s.push h o).true_top_ ∧ (s.push h o).top_ ≤ N := by
  simp only [atomic_stack.push]
  by_cases hc : s.top_ ≥ N <;> simp [hc] <;> omega

/-- `remove` preserves the size invariants of C9. -/
theorem remove_size_inv {N : Nat} (s : atomic_stack N) (h : Nat)
    (h1 : s.top_ ≤ s.true_top_) (h2 : s.top_ ≤ N) :
    (s.remove h).2.top_ ≤ (s.remove h).2.true_top_ ∧ (s.remove h).2.top_ ≤ N := by
  by_cases hz : s.true_top_ = 0
  · simp only [atomic_stack.remove, if_pos hz]
    exact ⟨h1, h2⟩
  · cases hscan : atomic_stack.scanFound s.pairs_ h s.top_ with
    | none =>
      simp only [atomic_stack.remove, if_neg hz, hscan]
      by_cases hge : s.true_top_ - 1 ≥ s.top_
      · rw [if_pos hge]
        exact ⟨hge, h2⟩
      · rw [if_neg hge]
        exact ⟨Nat.le_refl _, h2⟩
    | some i =>
      have hi := (scanFound_eq_some s.pairs_ h s.top_ i hscan).1
      simp only [atomic_stack.remove, if_neg hz, hscan]
      exact ⟨by omega, by omega⟩

/-- Size invariants hold along any run, from any state satisfying them. -/
theorem run_stack_ops_size_inv {N : Nat} :
    ∀ (ops : List stack_op) (s : atomic_stack N),
      s.top_ ≤ s.true_top_ → s.top_ ≤ N →
      (run_stack_ops s ops).top_ ≤ (run_stack_ops s ops).true_top_ ∧
        (run_stack_ops s ops).top_ ≤ N
  | [], _, h1, h2 => ⟨h1, h2⟩
  | stack_op.push_op a b :: ops, s, h1, h2 =>
    run_stack_ops_size_inv ops (s.push a b)
      (push_size_inv s a b h1 h2).1 (push_size_inv s a b h1 h2).2
  | stack_op.remove_op a :: ops, s, h1, h2 =>
    run_stack_ops_size_inv ops (s.remove a).2
      (remove_size_inv s a h1 h2).1 (remove_size_inv s a h1 h2).2

/-- Claim C9: for every `atomic_stack` and every sequence of `push` and
`remove` operations executed by the owning thread, after each completed
operation the logical size (`true_size`) is greater than or equal to the
physical size (`size`), and the physical size never exceeds the
capacity `N`.  (Every prefix of a sequence is itself a sequence, so this
states the invariant after each operation.) -/
theorem C9_logical_size_dominates {N : Nat} (ops : List stack_op) :
    (run_stack_ops (atomic_stack.init N) ops).top_ ≤
      (run_stack_ops (atomic_stack.init N) ops).true_top_ ∧
    (run_stack_ops (atomic_stack.init N) ops).top_ ≤ N :=
  run_stack_ops_size_inv ops (atomic_stack.init N)
    (Nat.le_refl 0) (Nat.zero_le N)

/-- Witness for the amended C2 on a lock/unlock pair. -/
theorem C2_amended_waits_bounded_witness :
    (⟨false, ⟨1, 1, 0, 0, 0⟩⟩ : category_state).stat.waits ≤
      (⟨false, ⟨1, 1, 0, 0, 0⟩⟩ : category_state).stat.locks +
        count_timed_expired [mutex_op.lock_uncontended, mutex_op.unlock_op] :=
  C2_amended_waits_bounded [mutex_op.lock_uncontended, mutex_op.unlock_op]
    ⟨false, ⟨1, 1, 0, 0, 0⟩⟩ (by decide)

/-- If `check_held` reports no conflict (null first component), the order
of the topmost physical entry is at most the proposed order: the first
scan step either breaks (`top_order < order`), or continues with
`top_order == order`; a greater order would return a non-null handle. -/
theorem check_held_top_le {N : Nat} (s : atomic_stack N) (h o : Nat)
    (htop : s.top_ ≤ N) (hpos : 0 < s.top_)
    (hz : ∀ j, j < s.top_ → (entry s j).1 ≠ 0)
    (hchk : (s.check_held h o).1 = 0) :
    (entry s (s.top_ - 1)).2 ≤ o := by
  obtain ⟨m, hm⟩ : ∃ m, s.top_ = m + 1 := ⟨s.top_ - 1, by omega⟩
  have htt : s.top 0 = entry s (s.top_ - 1) := by
    unfold atomic_stack.top
    rw [if_pos (⟨hpos, by omega⟩ : 0 < s.top_ ∧ s.top_ - 0 ≤ N)]
    simp [entry]
  simp only [atomic_stack.check_held, atomic_stack.size, hm,
    atomic_stack.check_held_from] at hchk
  by_cases hlt : (s.top 0).2 < o
  · rw [htt] at hlt; omega
  · by_cases hgt : (s.top 0).2 > o
    · rw [if_neg hlt, if_pos hgt] at hchk
      rw [htt] at hchk
      exact absurd hchk (hz (s.top_ - 1) (by omega))
    · rw [htt] at hlt hgt; omega

/-- The zero-initialized stack satisfies the lock-discipline invariant. -/
theorem stack_inv_init (N : Nat) : stack_inv (atomic_stack.init N) := by
  refine ⟨by simp [atomic_stack.init], by simp [atomic_stack.init],
    fun j hj => ?_, fun j hj => ?_⟩ <;>
    simp [atomic_stack.init] at hj

/-- A push admitted by the `pre_lock` check preserves the invariant. -/
theorem thread_lock_inv {N : Nat} (s : atomic_stack N) (h o : Nat)
    (hinv : stack_inv s) (hh : h ≠ 0)
    (hchk : (s.check_held h o).1 = 0) : stack_inv (s.push h o) := by
  obtain ⟨hlen, htop, hz, hsort⟩ := hinv
  have hall : ∀ j, j < s.top_ → (entry s j).2 ≤ o := by
    intro j hj
    have hle := check_held_top_le s h o htop (by omega) hz hchk
    exact le_trans (hsort j hj (s.top_ - 1) (by omega) (by omega)) hle
  by_cases hc : s.top_ ≥ N
  · have e1 : (s.push h o).top_ = s.top_ := by
      simp [atomic_stack.push, hc]
    have e2 : (s.push h o).pairs_ = s.pairs_.set (N - 1) (h, o) := by
      simp [atomic_stack.push, hc]
    refine ⟨?_, ?_, ?_, ?_⟩
    · rw [e2]
      simp [hlen]
    · rw [e1]
      exact htop
    · intro j hj
      rw [e1] at hj
      simp only [entry]
      rw [e2]
      by_cases hj1 : j = N - 1
      · subst hj1
        rw [getD_set_self s.pairs_ (N - 1) (h, o) invalidPair (by omega)]
        exact hh
      · rw [getD_set_ne s.pairs_ (N - 1) j (h, o) invalidPair (fun e => hj1 e.symm)]
        exact hz j (by omega)
    · intro j hj k hk hjk
      rw [e1] at hj hk
      simp only [entry]
      rw [e2]
      by_cases hk1 : k = N - 1
      · subst hk1
        rw [getD_set_self s.pairs_ (N - 1) (h, o) invalidPair (by omega)]
        by_cases hj1 : j = N - 1
        · subst hj1
          rw [getD_set_self s.pairs_ (N - 1) (h, o) invalidPair (by omega)]
        · rw [getD_set_ne s.pairs_ (N - 1) j (h, o) invalidPair (fun e => hj1 e.symm)]
          exact hall j (by omega)
      · rw [getD_set_ne s.pairs_ (N - 1) k (h, o) invalidPair (fun e => hk1 e.symm),
          getD_set_ne s.pairs_ (N - 1) j (h, o) invalidPair (fun e => by omega)]
        exact hsort j (by omega) k (by omega) hjk
  · have e1 : (s.push h o).top_ = s.top_ + 1 := by
      simp [atomic_stack.push, hc]
    have e2 : (s.push h o).pairs_ = s.pairs_.set s.top_ (h, o) := by
      simp [atomic_stack.push, hc]
    refine ⟨?_, ?_, ?_, ?_⟩
    · rw [e2]
      simp [hlen]
    · rw [e1]
      omega
    · intro j hj
      rw [e1] at hj
      simp only [entry]
      rw [e2]
      by_cases hj1 : j = s.top_
      · subst hj1
        rw [getD_set_self s.pairs_ s.top_ (h, o) invalidPair (by omega)]
        exact hh
      · rw [getD_set_ne s.pairs_ s.top_ j (h, o) invalidPair (fun e => hj1 e.symm)]
        exact hz j (by omega)
    · intro j hj k hk hjk
      rw [e1] at hj hk
      simp only [entry]
      rw [e2]
      by_cases hk1 : k = s.top_
      · subst hk1
        rw [getD_set_self s.pairs_ s.top_ (h, o) invalidPair (by omega)]
        by_cases hj1 : j = s.top_
        · subst hj1
          rw [getD_set_self s.pairs_ s.top_ (h, o) invalidPair (by omega)]
        · rw [getD_set_ne s.pairs_ s.top_ j (h, o) invalidPair (fun e => hj1 e.symm)]
          exact hall j (by omega)
      · rw [getD_set_ne s.pairs_ s.top_ k (h, o) invalidPair (fun e => hk1 e.symm),
          getD_set_ne s.pairs_ s.top_ j (h, o) invalidPair (fun e => by omega)]
        exact hsort j (by omega) k (by omega) hjk

/-- `remove` preserves the lock-discipline invariant: a shift deletes one
element of the physical sequence, and a subsequence of a sorted sequence
stays sorted. -/
theorem thread_unlock_inv {N : Nat} (s : atomic_stack N) (h : Nat)
    (hinv : stack_inv s) : stack_inv (s.remove h).2 := by
  obtain ⟨hlen, htop, hz, hsort⟩ := hinv
  by_cases hzt : s.true_top_ = 0
  · simp only [atomic_stack.remove, if_pos hzt]
    exact ⟨hlen, htop, hz, hsort⟩
  · cases hscan : atomic_stack.scanFound s.pairs_ h s.top_ with
    | none =>
      simp only [atomic_stack.remove, if_neg hzt, hscan]
      by_cases hge : s.true_top_ - 1 ≥ s.top_
      · rw [if_pos hge]
        exact ⟨hlen, htop, hz, hsort⟩
      · rw [if_neg hge]
        exact ⟨hlen, htop, hz, hsort⟩
    | some i =>
      obtain ⟨hi, hmatch, hab⟩ := scanFound_eq_some s.pairs_ h s.top_ i hscan
      simp only [atomic_stack.remove, if_neg hzt, hscan]
      have hlim : s.top_ - 1 < s.pairs_.length := by omega
      refine ⟨?_, ?_, ?_, ?_⟩
      · show (atomic_stack.shiftDown s.pairs_ i (s.top_ - 1)).length = N
        rw [shiftDown_length]
        exact hlen
      · show s.top_ - 1 ≤ N
        omega
      · intro j hj
        have hj2 : j < s.top_ - 1 := hj
        show ((atomic_stack.shiftDown s.pairs_ i (s.top_ - 1)).getD j
          invalidPair).1 ≠ 0
        by_cases hji : j < i
        · rw [shiftDown_getD_lt s.pairs_ i (s.top_ - 1) j invalidPair hji]
          exact hz j (by omega)
        · rw [shiftDown_getD_mid s.pairs_ i (s.top_ - 1) j invalidPair hlim
            (by omega) (by omega)]
          exact hz (j + 1) (by omega)
      · intro j hj k hk hjk
        have hj2 : j < s.top_ - 1 := hj
        have hk2 : k < s.top_ - 1 := hk
        show ((atomic_stack.shiftDown s.pairs_ i (s.top_ - 1)).getD j
            invalidPair).2 ≤
          ((atomic_stack.shiftDown s.pairs_ i (s.top_ - 1)).getD k
            invalidPair).2
        by_cases hki : k < i
        · rw [shiftDown_getD_lt s.pairs_ i (s.top_ - 1) j invalidPair (by omega),
            shiftDown_getD_lt s.pairs_ i (s.top_ - 1) k invalidPair hki]
          exact hsort j (by omega) k (by omega) hjk
        · rw [shiftDown_getD_mid s.pairs_ i (s.top_ - 1) k invalidPair hlim
            (by omega) (by omega)]
          by_cases hji : j < i
          · rw [shiftDown_getD_lt s.pairs_ i (s.top_ - 1) j invalidPair hji]
            exact hsort j (by omega) (k + 1) (by omega) (by omega)
          · rw [shiftDown_getD_mid s.pairs_ i (s.top_ - 1) j invalidPair hlim
              (by omega) (by omega)]
            exact hsort (j + 1) (by omega) (k + 1) (by omega) (by omega)

/-- The lock-discipline invariant holds along any non-aborting run. -/
theorem run_thread_ops_inv {N : Nat} (ops : List thread_op) :
    ∀ s : atomic_stack N, stack_inv s →
      ∀ s2, run_thread_ops s ops = some s2 → stack_inv s2 := by
  induction ops with
  | nil =>
    intro s hs s2 h
    simp only [run_thread_ops] at h
    cases h
    exact hs
  | cons op ops ih =>
    intro s hs s2 h
    simp only [run_thread_ops] at h
    cases hstep : thread_step s op with
    | none =>
      rw [hstep] at h
      simp at h
    | some s1 =>
      rw [hstep] at h
      have hs1 : stack_inv s1 := by
        cases op with
        | lock_op a o =>
          simp only [thread_step] at hstep
          split at hstep
          · rename_i hcond
            cases hstep
            exact thread_lock_inv s a o hs hcond.1 hcond.2
          · cases hstep
        | unlock_op a =>
          simp only [thread_step] at hstep
          split at hstep
          · cases hstep
            exact thread_unlock_inv s a hs
          · cases hstep
      exact ih s1 hs1 s2 h

/-- Claim C5 is false as stated: two distinct mutexes that share a
capability order both pass the pre-lock check (`check_held` skips an
equal-order entry with a different handle and returns the sentinel), so
after `lock(handle 1, order 5); lock(handle 2, order 5)` — a sequence in
which no abort fires even with every abort flag enabled — the held-stack
order sequence is `[5, 5]`: not strictly increasing. -/
theorem C5_counterexample :
    (run_thread_ops (atomic_stack.init 2)
        [thread_op.lock_op 1 5, thread_op.lock_op 2 5]).isSome = true ∧
    ¬ (∀ j, j + 1 <
          ((run_thread_ops (atomic_stack.init 2)
              [thread_op.lock_op 1 5, thread_op.lock_op 2 5]).getD
            (atomic_stack.init 2)).top_ →
        (entry ((run_thread_ops (atomic_stack.init 2)
              [thread_op.lock_op 1 5, thread_op.lock_op 2 5]).getD
            (atomic_stack.init 2)) j).2 <
          (entry ((run_thread_ops (atomic_stack.init 2)
              [thread_op.lock_op 1 5, thread_op.lock_op 2 5]).getD
            (atomic_stack.init 2)) (j + 1)).2) := by
  refine ⟨by decide, fun hs => ?_⟩
  have h0 := hs 0 (by decide)
  revert h0
  decide

/-- Claim C5 (amended): for every thread, after any sequence of
instrumented mutex lock and unlock operations in which no abort fires,
the sequence of orders in its held stack from bottom to top is
non-decreasing; it need not be strictly increasing, because distinct
mutexes sharing one order are accepted by the pre-lock check. -/
theorem C5_amended_nondecreasing {N : Nat} (ops : List thread_op)
    (s : atomic_stack N)
    (hrun : run_thread_ops (atomic_stack.init N) ops = some s) :
    ∀ j, j < s.top_ → ∀ k, k < s.top_ → j ≤ k →
      (entry s j).2 ≤ (entry s k).2 :=
  (run_thread_ops_inv ops (atomic_stack.init N) (stack_inv_init N) s hrun).2.2.2

/-- Characterization of the `check_held` scan loop (`mutex.h:932-939`)
from loop counter `i` with `fuel` iterations left, on a well-formed held
stack (non-decreasing orders, non-null handles, handle-determines-order).
Entries already scanned (top offsets below `i`, i.e. bottom indices `b`
with `s.top_ ≤ i + b`) are assumed conflict-free. -/
theorem check_held_from_char {N : Nat} (s : atomic_stack N) (h o : Nat)
    (htop : s.top_ ≤ N) (hh : h ≠ 0)
    (hz : ∀ j, j < s.top_ → (entry s j).1 ≠ 0)
    (hsort : ∀ j, j < s.top_ → ∀ k, k < s.top_ → j ≤ k →
      (entry s j).2 ≤ (entry s k).2)
    (hcons : ∀ j, j < s.top_ → (entry s j).1 = h → (entry s j).2 = o) :
    ∀ fuel i, i + fuel = s.top_ →
      (∀ b, b < s.top_ → s.top_ ≤ i + b →
        ¬(o < (entry s b).2 ∨ (entry s b).1 = h)) →
      ((atomic_stack.check_held_from s h o i fuel = invalidPair ↔
          ∀ b, b < s.top_ → ¬(o < (entry s b).2 ∨ (entry s b).1 = h)) ∧
        (atomic_stack.check_held_from s h o i fuel ≠ invalidPair →
          ∃ b, b < s.top_ ∧
            atomic_stack.check_held_from s h o i fuel = entry s b ∧
            (o < (entry s b).2 ∨ (entry s b).1 = h) ∧
            ∀ j, j < s.top_ → b < j →
              ¬(o < (entry s j).2 ∨ (entry s j).1 = h))) := by
  intro fuel
  induction fuel with
  | zero =>
    intro i hif hscanned
    refine ⟨⟨fun _ b hb => hscanned b hb (by omega), fun _ => rfl⟩,
      fun hne => absurd rfl hne⟩
  | succ fuel ih =>
    intro i hif hscanned
    have hipos : i < s.top_ := by omega
    have hb0 : s.top_ - i - 1 < s.top_ := by omega
    have htt : s.top i = entry s (s.top_ - i - 1) := by
      unfold atomic_stack.top
      rw [if_pos (⟨hipos, by omega⟩ : i < s.top_ ∧ s.top_ - i ≤ N)]
      rfl
    simp only [atomic_stack.check_held_from]
    by_cases hlt : (s.top i).2 < o
    · rw [if_pos hlt]
      have hall : ∀ b, b < s.top_ →
          ¬(o < (entry s b).2 ∨ (entry s b).1 = h) := by
        intro b hb
        by_cases hsc : s.top_ ≤ i + b
        · exact hscanned b hb hsc
        · have hble : b ≤ s.top_ - i - 1 := by omega
          have h1 : (entry s b).2 ≤ (entry s (s.top_ - i - 1)).2 :=
            hsort b hb _ hb0 hble
          rw [← htt] at h1
          rintro (hc | hc)
          · omega
          · have := hcons b hb hc
            omega
      exact ⟨⟨fun _ => hall, fun _ => rfl⟩, fun hne => absurd rfl hne⟩
    · rw [if_neg hlt]
      by_cases hgt : (s.top i).2 > o
      · rw [if_pos hgt]
        have hgt2 : o < (entry s (s.top_ - i - 1)).2 := by
          rw [← htt]
          exact hgt
        have hne : s.top i ≠ invalidPair := by
          rw [htt]
          intro he
          have hz0 := hz _ hb0
          rw [he] at hz0
          exact hz0 rfl
        refine ⟨⟨fun he => absurd he hne,
          fun hall => absurd (Or.inl hgt2) (hall _ hb0)⟩, fun _ => ?_⟩
        exact ⟨s.top_ - i - 1, hb0, htt, Or.inl hgt2,
          fun j hj hbj => hscanned j hj (by omega)⟩
      · rw [if_neg hgt]
        by_cases hmt : (s.top i).1 = h
        · rw [if_pos hmt]
          have hmt2 : (entry s (s.top_ - i - 1)).1 = h := by
            rw [← htt]
            exact hmt
          have hne : s.top i ≠ invalidPair := by
            intro he
            rw [he] at hmt
            exact hh hmt.symm
          refine ⟨⟨fun he => absurd he hne,
            fun hall => absurd (Or.inr hmt2) (hall _ hb0)⟩, fun _ => ?_⟩
          exact ⟨s.top_ - i - 1, hb0, htt, Or.inr hmt2,
            fun j hj hbj => hscanned j hj (by omega)⟩
        · rw [if_neg hmt]
          have hnc : ¬(o < (entry s (s.top_ - i - 1)).2 ∨
              (entry s (s.top_ - i - 1)).1 = h) := by
            rintro (hc | hc)
            · rw [← htt] at hc
              omega
            · rw [← htt] at hc
              exact hmt hc
          refine ih (i + 1) (by omega) (fun b hb hsc => ?_)
          by_cases hbe : s.top_ ≤ i + b
          · exact hscanned b hb hbe
          · have hbeq : b = s.top_ - i - 1 := by omega
            rw [hbeq]
            exact hnc

/-- Claim C1 is false as stated: on the held stack `[(handle 1, order 5)]`
(strictly increasing orders, no duplicate handle, well within its
capacity of 16), the proposed acquisition `(handle 2, order 5)` makes
`check_held` return the invalid sentinel — the scan skips an equal-order
entry with a different handle — even though pushing `(2, 5)` would give
the order sequence `[5, 5]`, which is not strictly increasing (while no
handle is duplicated).  So "sentinel iff (push keeps strict increase and
no duplicate handle)" fails, as does "otherwise the first entry with
order ≥ the proposed order is returned". -/
theorem C1_counterexample :
    atomic_stack.check_held ((atomic_stack.init 16).push 1 5) 2 5 =
      invalidPair ∧
    ((atomic_stack.init 16).push 1 5).top_ = 1 ∧
    (entry ((atomic_stack.init 16).push 1 5) 0).1 = 1 ∧
    (((atomic_stack.init 16).push 1 5).push 2 5).top_ = 2 ∧
    (entry (((atomic_stack.init 16).push 1 5).push 2 5) 0).2 = 5 ∧
    (entry (((atomic_stack.init 16).push 1 5).push 2 5) 1).2 = 5 := by
  decide

/-- Claim C1 (amended): for every well-formed held stack (non-decreasing
orders bottom to top, non-null handles, and entries carrying the proposed
handle carry the proposed order, as mutexes have a fixed order) and every
proposed acquisition `(handle, order)` with a non-null handle,
`check_held` returns the invalid sentinel pair if and only if pushing
`(handle, order)` would keep the stack's order sequence non-decreasing
and would not duplicate a handle; otherwise it returns the first entry,
scanning from the top, whose order is strictly greater than the proposed
order or whose handle equals the proposed handle (equal-order entries
with different handles are skipped). -/
theorem C1_amended_check_held_characterization {N : Nat}
    (s : atomic_stack N) (h o : Nat)
    (htop : s.top_ ≤ N) (hh : h ≠ 0)
    (hz : ∀ j, j < s.top_ → (entry s j).1 ≠ 0)
    (hsort : ∀ j, j < s.top_ → ∀ k, k < s.top_ → j ≤ k →
      (entry s j).2 ≤ (entry s k).2)
    (hcons : ∀ j, j < s.top_ → (entry s j).1 = h → (entry s j).2 = o) :
    (s.check_held h o = invalidPair ↔
      (∀ j, j < s.top_ → (entry s j).2 ≤ o) ∧
        ∀ j, j < s.top_ → (entry s j).1 ≠ h) ∧
    (s.check_held h o ≠ invalidPair →
      ∃ b, b < s.top_ ∧ s.check_held h o = entry s b ∧
        (o < (entry s b).2 ∨ (entry s b).1 = h) ∧
        ∀ j, j < s.top_ → b < j →
          ¬(o < (entry s j).2 ∨ (entry s j).1 = h)) := by
  have hchar := check_held_from_char s h o htop hh hz hsort hcons s.top_ 0
    (by omega) (fun b hb hsc => absurd hsc (by omega))
  constructor
  · rw [show s.check_held h o =
        atomic_stack.check_held_from s h o 0 s.top_ from rfl]
    rw [hchar.1]
    constructor
    · intro hall
      constructor
      · intro j hj
        have hthis := hall j hj
        push_neg at hthis
        omega
      · intro j hj
        have hthis := hall j hj
        push_neg at hthis
        exact hthis.2
    · rintro ⟨h1, h2⟩ b hb
      rintro (hc | hc)
      · have := h1 b hb
        omega
      · exact h2 b hb hc
  · exact hchar.2

/-- Witness for the amended C1 on the stack `[(1,5)]` with proposal
`(2, 7)`: the sentinel is returned exactly because `7` extends the order
sequence and handle `2` is fresh. -/
theorem C1_amended_check_held_characterization_witness :
    ((⟨1, 1, [(1, 5), (0, 0)]⟩ : atomic_stack 2).check_held 2 7 =
        invalidPair ↔
      (∀ j, j < (⟨1, 1, [(1, 5), (0, 0)]⟩ : atomic_stack 2).top_ →
          (entry (⟨1, 1, [(1, 5), (0, 0)]⟩ : atomic_stack 2) j).2 ≤ 7) ∧
        ∀ j, j < (⟨1, 1, [(1, 5), (0, 0)]⟩ : atomic_stack 2).top_ →
          (entry (⟨1, 1, [(1, 5), (0, 0)]⟩ : atomic_stack 2) j).1 ≠ 2) ∧
    ((⟨1, 1, [(1, 5), (0, 0)]⟩ : atomic_stack 2).check_held 2 7 ≠
        invalidPair →
      ∃ b, b < (⟨1, 1, [(1, 5), (0, 0)]⟩ : atomic_stack 2).top_ ∧
        (⟨1, 1, [(1, 5), (0, 0)]⟩ : atomic_stack 2).check_held 2 7 =
          entry (⟨1, 1, [(1, 5), (0, 0)]⟩ : atomic_stack 2) b ∧
        (7 < (entry (⟨1, 1, [(1, 5), (0, 0)]⟩ : atomic_stack 2) b).2 ∨
          (entry (⟨1, 1, [(1, 5), (0, 0)]⟩ : atomic_stack 2) b).1 = 2) ∧
        ∀ j, j < (⟨1, 1, [(1, 5), (0, 0)]⟩ : atomic_stack 2).top_ → b < j →
          ¬(7 < (entry (⟨1, 1, [(1, 5), (0, 0)]⟩ : atomic_stack 2) j).2 ∨
            (entry (⟨1, 1, [(1, 5), (0, 0)]⟩ : atomic_stack 2) j).1 = 2)) :=
  C1_amended_check_held_characterization ⟨1, 1, [(1, 5), (0, 0)]⟩ 2 7
    (by decide) (by decide) (by decide) (by decide) (by decide)

/-- Witness for the amended C5: after `lock(handle 1, order 3);
lock(handle 2, order 5)` the two held orders are non-decreasing. -/
theorem C5_amended_nondecreasing_witness :
    (entry (⟨2, 2, [(1, 3), (2, 5)]⟩ : atomic_stack 2) 0).2 ≤
      (entry (⟨2, 2, [(1, 3), (2, 5)]⟩ : atomic_stack 2) 1).2 :=
  C5_amended_nondecreasing [thread_op.lock_op 1 3, thread_op.lock_op 2 5]
    ⟨2, 2, [(1, 3), (2, 5)]⟩ (by decide) 0 (by decide) 1 (by decide) (by decide)

/-- Claim C8: for every registry snapshot and target tid, if the target
thread's descriptor exists (its weak reference promotes) but has a null
waiting mutex handle and an invalid auxiliary-wait tid — it is neither
blocked on a mutex nor in a cv/join/queue wait — then
`deadlock_detection(target_tid)` returns a `deadlock_info` with an empty
chain and `has_cycle = false`. -/
theorem C8_idle_target_empty_chain {N : Nat} (reg : registry_map N)
    (tid : Int) (names : List String) (t : thread_mutex_info N)
    (hfind : tid_to_info reg tid = some t)
    (hm : t.mutex_wait_ = 0) (hw : t.other_wait_info_.tid_ = kInvalidTid) :
    (deadlock_detection reg tid names).chain = [] ∧
    (deadlock_detection reg tid names).has_cycle = false := by
  simp only [deadlock_detection, hfind]
  rw [if_pos ⟨hm, hw⟩]
  exact ⟨rfl, rfl⟩

/-- Witness for C8: a one-thread registry whose thread waits on nothing. -/
theorem C8_idle_target_empty_chain_witness :
    (deadlock_detection
        ([(5, some ⟨5, 0, ⟨-1, other_wait_reason_t.none, 0⟩,
            atomic_stack.init 16⟩)] : registry_map 16) 5 []).chain = [] ∧
    (deadlock_detection
        ([(5, some ⟨5, 0, ⟨-1, other_wait_reason_t.none, 0⟩,
            atomic_stack.init 16⟩)] : registry_map 16) 5 []).has_cycle =
      false :=
  C8_idle_target_empty_chain _ 5 []
    ⟨5, 0, ⟨-1, other_wait_reason_t.none, 0⟩, atomic_stack.init 16⟩
    (by decide) rfl rfl

end AudioUtils
